import Mathlib

/-!
Verification of the in-memory semantic search core of this repository
(`SimpleSemanticSearch` and `find_most_similar` in
`src/MachineLearning/semantic_search/semantic_search.ipynb`).

Embedding vectors produced by the sentence-transformer model are modelled as
lists of rationals (every float is a rational); the similarity scores computed
by `util.pytorch_cos_sim` are modelled as real numbers, taking the exact limit
of the float computation (`normalize` with eps -> 0: a zero vector normalizes
to the zero vector, so a zero-norm operand yields similarity 0).
-/

/-- Dot product of two rational vectors (`zipWith` truncates to the shorter). -/
def dotp (a b : List ℚ) : ℚ := (List.zipWith (· * ·) a b).sum

/-- Dot product of two real vectors. -/
def dotR (a b : List ℝ) : ℝ := (List.zipWith (· * ·) a b).sum

theorem dotp_self_nonneg (a : List ℚ) : 0 ≤ dotp a a := by
  induction a with
  | nil => simp [dotp]
  | cons x xs ih =>
    simp only [dotp, List.zipWith_cons_cons, List.sum_cons] at ih ⊢
    have hx : 0 ≤ x * x := mul_self_nonneg x
    linarith

theorem dotp_self_eq_zero {a : List ℚ} (h : dotp a a = 0) :
    ∀ x ∈ a, x = 0 := by
  induction a with
  | nil => simp
  | cons x xs ih =>
    simp only [dotp, List.zipWith_cons_cons, List.sum_cons] at h
    have hx : 0 ≤ x * x := mul_self_nonneg x
    have hxs : 0 ≤ dotp xs xs := dotp_self_nonneg xs
    have hx0 : x * x = 0 := by
      have := dotp_self_nonneg xs
      simp only [dotp] at this
      linarith
    have hxz : x = 0 := by
      rcases mul_self_eq_zero.mp hx0 with h0
      exact h0
    intro y hy
    rcases List.mem_cons.mp hy with rfl | hmem
    · exact hxz
    · apply ih
      · simp only [dotp]
        have : (List.zipWith (· * ·) xs xs).sum = 0 := by
          rw [hxz] at h; linarith
        exact this
      · exact hmem

theorem dotR_zero_left (c : List ℝ) :
    ∀ a : List ℚ, dotR (a.map fun _ => (0 : ℝ)) c = 0 := by
  induction c with
  | nil => intro a; simp [dotR]
  | cons y ys ih =>
    intro a
    cases a with
    | nil => simp [dotR]
    | cons x xs =>
      simp only [List.map_cons, dotR, List.zipWith_cons_cons, List.sum_cons,
        zero_mul, zero_add]
      exact ih xs

theorem dotR_zero_right (a : List ℝ) (b : List ℚ) :
    dotR a (b.map fun _ => (0 : ℝ)) = 0 := by
  induction a generalizing b with
  | nil => simp [dotR]
  | cons x xs ih =>
    cases b with
    | nil => simp [dotR]
    | cons y ys =>
      simp only [List.map_cons, dotR, List.zipWith_cons_cons, List.sum_cons,
        mul_zero, zero_add]
      exact ih ys

theorem dotR_map_div (x y : ℝ) :
    ∀ a b : List ℚ,
      dotR (a.map (fun t : ℚ => (t : ℝ) / x)) (b.map (fun t : ℚ => (t : ℝ) / y)) =
        dotR (a.map (fun t : ℚ => (t : ℝ))) (b.map (fun t : ℚ => (t : ℝ))) / (x * y) := by
  intro a
  induction a with
  | nil => intro b; simp [dotR]
  | cons s ss ih =>
    intro b
    cases b with
    | nil => simp [dotR]
    | cons t ts =>
      simp only [List.map_cons, dotR, List.zipWith_cons_cons, List.sum_cons] at ih ⊢
      rw [show ((s : ℝ) / x * ((t : ℝ) / y)) = (s : ℝ) * (t : ℝ) / (x * y) from
        div_mul_div_comm _ _ _ _]
      rw [ih ts, add_div]

theorem dotR_cast (a b : List ℚ) :
    dotR (a.map (fun t : ℚ => (t : ℝ))) (b.map (fun t : ℚ => (t : ℝ))) = (dotp a b : ℝ) := by
  induction a generalizing b with
  | nil => simp [dotR, dotp]
  | cons s ss ih =>
    cases b with
    | nil => simp [dotR, dotp]
    | cons t ts =>
      simp only [List.map_cons, dotR, dotp, List.zipWith_cons_cons, List.sum_cons,
        Rat.cast_add, Rat.cast_mul] at ih ⊢
      rw [ih ts]

/-- Model of `torch.nn.functional.normalize` in the exact limit (eps -> 0):
a vector with zero norm normalizes to the zero vector, otherwise each entry
is divided by the Euclidean norm. -/
noncomputable def l2normalize (a : List ℚ) : List ℝ :=
  if Real.sqrt (dotp a a : ℝ) = 0 then a.map (fun _ : ℚ => (0 : ℝ))
  else a.map (fun t : ℚ => (t : ℝ) / Real.sqrt (dotp a a : ℝ))

/-- Model of `util.pytorch_cos_sim(a, b).item()`: normalize both operands,
then take the dot product. -/
noncomputable def cos_sim (a b : List ℚ) : ℝ := dotR (l2normalize a) (l2normalize b)

theorem sqrt_dotp_eq_zero_iff {a : List ℚ} :
    Real.sqrt (dotp a a : ℝ) = 0 ↔ dotp a a = 0 := by
  constructor
  · intro h
    have h0 : (0 : ℝ) ≤ (dotp a a : ℝ) := by exact_mod_cast dotp_self_nonneg a
    have := Real.sqrt_eq_zero h0 |>.mp h
    exact_mod_cast this
  · intro h
    rw [h]
    simp [Real.sqrt_zero]

/-- The score `cos_sim` computes is exactly `dot(a,b) / (norm(a) * norm(b))`
(with Lean's convention that division by zero is zero, matching the
zero-vector case yielding 0). -/
theorem cos_sim_eq (a b : List ℚ) :
    cos_sim a b =
      (dotp a b : ℝ) / (Real.sqrt (dotp a a : ℝ) * Real.sqrt (dotp b b : ℝ)) := by
  by_cases ha : Real.sqrt (dotp a a : ℝ) = 0
  · have haz : dotp a a = 0 := sqrt_dotp_eq_zero_iff.mp ha
    have hab : dotp a b = 0 := by
      have hz : ∀ x ∈ a, x = 0 := dotp_self_eq_zero haz
      clear haz ha
      induction a generalizing b with
      | nil => simp [dotp]
      | cons x xs ih =>
        cases b with
        | nil => simp [dotp]
        | cons y ys =>
          have hx : x = 0 := hz x (List.mem_cons_self x xs)
          simp only [dotp, List.zipWith_cons_cons, List.sum_cons, hx, zero_mul,
            zero_add]
          exact ih ys (fun t ht => hz t (List.mem_cons_of_mem x ht))
    rw [cos_sim, l2normalize, if_pos ha, dotR_zero_left, hab, ha]
    simp
  · by_cases hb : Real.sqrt (dotp b b : ℝ) = 0
    · rw [cos_sim]
      rw [show l2normalize b = b.map (fun _ : ℚ => (0 : ℝ)) from by
        rw [l2normalize, if_pos hb]]
      rw [dotR_zero_right, hb, mul_zero, div_zero]
    · rw [cos_sim, l2normalize, l2normalize, if_neg ha, if_neg hb,
        dotR_map_div, dotR_cast]

/-- Self-similarity: a vector with nonzero norm has cosine similarity `1`
with itself. -/
theorem cos_sim_self {v : List ℚ} (h : dotp v v ≠ 0) : cos_sim v v = 1 := by
  rw [cos_sim_eq]
  have h0 : (0 : ℝ) ≤ (dotp v v : ℝ) := by exact_mod_cast dotp_self_nonneg v
  rw [Real.mul_self_sqrt h0]
  rw [div_self]
  exact_mod_cast h

/-- The ordering `np.argsort` realizes on this notebook's short score arrays:
ascending by value, ties kept in ascending original-index order (numpy's
introsort falls back to a stable insertion sort below its 16-element
threshold, so the result is exactly the ordering by the (value, index) key). -/
def lexLe {α : Type} [LinearOrder α] (p q : ℕ × α) : Prop :=
  p.2 < q.2 ∨ (p.2 = q.2 ∧ p.1 ≤ q.1)

instance lexLeDecidable {α : Type} [LinearOrder α] : DecidableRel (@lexLe α _) :=
  fun p q => by unfold lexLe; infer_instance

instance lexLeTotal {α : Type} [LinearOrder α] : IsTotal (ℕ × α) lexLe := by
  constructor
  intro a b
  rcases lt_trichotomy a.2 b.2 with h | h | h
  · exact Or.inl (Or.inl h)
  · rcases le_total a.1 b.1 with h1 | h1
    · exact Or.inl (Or.inr ⟨h, h1⟩)
    · exact Or.inr (Or.inr ⟨h.symm, h1⟩)
  · exact Or.inr (Or.inl h)

instance lexLeTrans {α : Type} [LinearOrder α] : IsTrans (ℕ × α) lexLe := by
  constructor
  intro a b c hab hbc
  rcases hab with hab | ⟨hab, hab1⟩
  · rcases hbc with hbc | ⟨hbc, _⟩
    · exact Or.inl (hab.trans hbc)
    · exact Or.inl (hbc ▸ hab)
  · rcases hbc with hbc | ⟨hbc, hbc1⟩
    · exact Or.inl (hab ▸ hbc)
    · exact Or.inr ⟨hab.trans hbc, hab1.trans hbc1⟩

/-- `enumerate` from index `n`: pairs each element with its position. -/
def enumFromIdx {α : Type} (n : ℕ) : List α → List (ℕ × α)
  | [] => []
  | x :: xs => (n, x) :: enumFromIdx (n + 1) xs

theorem length_enumFromIdx {α : Type} (n : ℕ) (xs : List α) :
    (enumFromIdx n xs).length = xs.length := by
  induction xs generalizing n with
  | nil => rfl
  | cons x xs ih => simp [enumFromIdx, ih]

theorem map_fst_enumFromIdx {α : Type} (n : ℕ) (xs : List α) :
    (enumFromIdx n xs).map Prod.fst = List.range' n xs.length := by
  induction xs generalizing n with
  | nil => rfl
  | cons x xs ih =>
    simp only [enumFromIdx, List.map_cons, List.length_cons, List.range'_succ]
    rw [ih]

theorem mem_enumFromIdx {α : Type} {n : ℕ} {xs : List α} {p : ℕ × α}
    (h : p ∈ enumFromIdx n xs) : n ≤ p.1 ∧ xs[p.1 - n]? = some p.2 := by
  induction xs generalizing n with
  | nil => cases h
  | cons x xs ih =>
    rcases List.mem_cons.mp h with rfl | hmem
    · simp
    · rcases ih hmem with ⟨h1, h2⟩
      refine ⟨le_trans (Nat.le_succ n) h1, ?_⟩
      have hstep : p.1 - n = (p.1 - (n + 1)) + 1 := by omega
      rw [hstep, List.getElem?_cons_succ]
      exact h2

theorem mem_enumFromIdx_zero {α : Type} {xs : List α} {p : ℕ × α}
    (h : p ∈ enumFromIdx 0 xs) : xs[p.1]? = some p.2 := by
  have := (mem_enumFromIdx h).2
  simpa using this

/-- Model of `np.argsort` (ascending; stable on the short arrays this
notebook sorts): the list of positions of `xs` ordered by `lexLe`. -/
def argsort {α : Type} [LinearOrder α] (xs : List α) : List ℕ :=
  ((enumFromIdx 0 xs).insertionSort lexLe).map Prod.fst

theorem argsort_perm_range {α : Type} [LinearOrder α] (xs : List α) :
    (argsort xs).Perm (List.range xs.length) := by
  have h1 : ((enumFromIdx 0 xs).insertionSort lexLe).Perm (enumFromIdx 0 xs) :=
    List.perm_insertionSort lexLe _
  have h2 := h1.map Prod.fst
  rw [map_fst_enumFromIdx] at h2
  rw [List.range_eq_range']
  exact h2

theorem argsort_length {α : Type} [LinearOrder α] (xs : List α) :
    (argsort xs).length = xs.length := by
  have := (argsort_perm_range xs).length_eq
  simpa using this

theorem argsort_mem_lt {α : Type} [LinearOrder α] {xs : List α} {i : ℕ}
    (h : i ∈ argsort xs) : i < xs.length :=
  List.mem_range.mp ((argsort_perm_range xs).mem_iff.mp h)

theorem mem_argsort {α : Type} [LinearOrder α] {xs : List α} {i : ℕ}
    (h : i < xs.length) : i ∈ argsort xs :=
  (argsort_perm_range xs).mem_iff.mpr (List.mem_range.mpr h)

theorem argsort_pairwise {α : Type} [LinearOrder α] (d : α) (xs : List α) :
    (argsort xs).Pairwise (fun i j =>
      xs.getD i d < xs.getD j d ∨ (xs.getD i d = xs.getD j d ∧ i ≤ j)) := by
  have hsorted : List.Sorted lexLe ((enumFromIdx 0 xs).insertionSort lexLe) :=
    List.sorted_insertionSort lexLe _
  have hperm : ((enumFromIdx 0 xs).insertionSort lexLe).Perm (enumFromIdx 0 xs) :=
    List.perm_insertionSort lexLe _
  have hkey : ∀ p ∈ (enumFromIdx 0 xs).insertionSort lexLe, xs.getD p.1 d = p.2 := by
    intro p hp
    have hmem : p ∈ enumFromIdx 0 xs := hperm.mem_iff.mp hp
    have := mem_enumFromIdx_zero hmem
    rw [List.getD_eq_getElem?_getD, this]
    rfl
  rw [argsort, List.pairwise_map]
  refine hsorted.imp_of_mem ?_
  intro a b ha hb hab
  rcases hab with h | ⟨h1, h2⟩
  · left
    rw [hkey a ha, hkey b hb]
    exact h
  · right
    rw [hkey a ha, hkey b hb]
    exact ⟨h1, h2⟩

/-- In a `Pairwise R` list containing `i` and `j` with `R j i` but not
`R i j`, the pair `[j, i]` occurs in order as a sublist: `j` is earlier. -/
theorem sublist_pair_of_pairwise {β : Type} {l : List β} {R : β → β → Prop}
    {i j : β} (hp : l.Pairwise R) (hi : i ∈ l) (hj : j ∈ l) (hji : R j i)
    (hnij : ¬ R i j) : [j, i].Sublist l := by
  have hne : i ≠ j := by
    intro h
    exact hnij (h ▸ hji)
  induction l with
  | nil => cases hi
  | cons x t ih =>
    rcases List.pairwise_cons.mp hp with ⟨hx, ht⟩
    by_cases hxj : x = j
    · subst hxj
      have hit : i ∈ t := by
        rcases List.mem_cons.mp hi with h | h
        · exact absurd h hne
        · exact h
      exact (List.singleton_sublist.mpr hit).cons₂ x
    · have hjt : j ∈ t := by
        rcases List.mem_cons.mp hj with h | h
        · exact absurd h.symm hxj
        · exact h
      by_cases hxi : x = i
      · subst hxi
        exact absurd (hx j hjt) hnij
      · have hit : i ∈ t := by
          rcases List.mem_cons.mp hi with h | h
          · exact absurd h.symm hxi
          · exact h
        exact (ih ht hit hjt).cons x

/-- If position `p` holds the strict maximum of `xs`, it heads the reversed
argsort. -/
theorem reverse_argsort_head {α : Type} [LinearOrder α] {xs : List α} {p : ℕ}
    (d : α) (hp : p < xs.length)
    (hmax : ∀ j, j < xs.length → j ≠ p → xs.getD j d < xs.getD p d) :
    ∃ rest, (argsort xs).reverse = p :: rest := by
  cases hrev : (argsort xs).reverse with
  | nil =>
    exfalso
    have := congrArg List.length hrev
    simp only [List.length_reverse, argsort_length, List.length_nil] at this
    omega
  | cons hd rest =>
    have hpairs := List.pairwise_reverse.mpr (argsort_pairwise d xs)
    rw [hrev] at hpairs
    have hpmem : p ∈ hd :: rest := by
      rw [← hrev, List.mem_reverse]
      exact mem_argsort hp
    rcases List.mem_cons.mp hpmem with rfl | hpt
    · exact ⟨rest, rfl⟩
    · exfalso
      have hnodup : ((argsort xs).reverse).Nodup :=
        List.nodup_reverse.mpr
          ((argsort_perm_range xs).nodup_iff.mpr (List.nodup_range _))
      rw [hrev] at hnodup
      by_cases hhp : hd = p
      · exact (List.nodup_cons.mp hnodup).1 (by rw [hhp]; exact hpt)
      · have hhd : hd ∈ argsort xs := by
          rw [← List.mem_reverse, hrev]
          exact List.mem_cons_self hd rest
        have hhdlt : hd < xs.length := argsort_mem_lt hhd
        have hrel := (List.pairwise_cons.mp hpairs).1 p hpt
        have hlt := hmax hd hhdlt hhp
        rcases hrel with h | ⟨h, _⟩
        · exact absurd (h.trans hlt) (lt_irrefl _)
        · rw [h] at hlt
          exact absurd hlt (lt_irrefl _)

/-- Python-level failures the notebook code can raise. -/
inductive PyError : Type
  /-- `EmbeddingError`: the sentence-transformer raised while encoding. -/
  | embeddingError : PyError
  /-- `TypeError`: iterating over `None` (searching a never-indexed engine). -/
  | typeError : PyError
  /-- `IndexError`: a list or array subscript out of range. -/
  | indexError : PyError
deriving DecidableEq

/-- State of a `SimpleSemanticSearch` object: `self.documents` and
`self.embeddings` (`None` until `index_documents` first succeeds at
encoding). -/
structure SimpleSemanticSearch : Type where
  documents : List String
  embeddings : Option (List (List ℚ))
deriving DecidableEq

namespace SimpleSemanticSearch

/-- `__init__`: `self.documents = []`, `self.embeddings = None`. -/
def init : SimpleSemanticSearch := { documents := [], embeddings := none }

end SimpleSemanticSearch

/-- Model of `self.model.encode(documents)` for a deterministic per-text
embedder `embed` (the Embedder collaborator): one vector per document, or a
raised `EmbeddingError` (`none`) if any document cannot be encoded. -/
def encodeBatch (embed : String → Option (List ℚ)) : List String → Option (List (List ℚ))
  | [] => some []
  | d :: rest =>
    match embed d, encodeBatch embed rest with
    | some v, some vs => some (v :: vs)
    | _, _ => none

namespace SimpleSemanticSearch

/-- `index_documents`: the source assigns `self.documents = documents` and
then `self.embeddings = self.model.encode(documents)`; if the encode raises,
the assignment to `self.documents` has already happened and the exception
propagates (`false` component), leaving `self.embeddings` untouched. -/
def index_documents (embed : String → Option (List ℚ))
    (self : SimpleSemanticSearch) (documents : List String) :
    SimpleSemanticSearch × Bool :=
  let self1 : SimpleSemanticSearch :=
    { documents := documents, embeddings := self.embeddings }
  match encodeBatch embed documents with
  | some embs => ({ self1 with embeddings := some embs }, true)
  | none => (self1, false)

end SimpleSemanticSearch

/-- The comprehension `[(self.documents[idx], similarities[idx]) for idx in
top_indices]`: `none` models the `IndexError` raised if some `idx` exceeds
the document list (`similarities[idx]` cannot fail: argsort indices are in
range). -/
def lookupPairs (docs : List String) (sims : List ℝ) :
    List ℕ → Option (List (String × ℝ))
  | [] => some []
  | i :: rest =>
    match docs[i]?, lookupPairs docs sims rest with
    | some doc, some tl => some ((doc, sims.getD i 0) :: tl)
    | _, _ => none

/-- `np.argsort(similarities)[::-1][:top_k]`. -/
noncomputable def top_indices (sims : List ℝ) (top_k : ℕ) : List ℕ :=
  ((argsort sims).reverse).take top_k

namespace SimpleSemanticSearch

/-- The value `search` returns (or the exception it raises): encode the
query, compute the cosine similarity against every stored embedding, rank
descending via `np.argsort(similarities)[::-1][:top_k]`, return the
`(document, score)` pairs. Iterating `self.embeddings` when it is still
`None` raises a `TypeError`. -/
noncomputable def search_result (embed : String → Option (List ℚ))
    (self : SimpleSemanticSearch) (query : String) (top_k : ℕ) :
    Except PyError (List (String × ℝ)) :=
  match embed query with
  | none => .error .embeddingError
  | some query_embedding =>
    match self.embeddings with
    | none => .error .typeError
    | some embs =>
      let similarities := embs.map (fun doc_emb => cos_sim query_embedding doc_emb)
      match lookupPairs self.documents similarities (top_indices similarities top_k) with
      | some res => .ok res
      | none => .error .indexError

/-- `search`: the returned/raised value paired with the object state after
the call (the method assigns to no attribute, so the state is passed through
unchanged). -/
noncomputable def search (embed : String → Option (List ℚ))
    (self : SimpleSemanticSearch) (query : String) (top_k : ℕ) :
    SimpleSemanticSearch × Except PyError (List (String × ℝ)) :=
  (self, search_result embed self query top_k)

end SimpleSemanticSearch

/-- Python list subscripting with an `int` index: nonnegative indices are
positional, negative indices count from the end, anything outside
`[-len, len)` raises `IndexError` (`none`). -/
def pyIndex {α : Type} (l : List α) (i : ℤ) : Option α :=
  if 0 ≤ i then l[i.toNat]?
  else if 0 ≤ i + l.length then l[(i + l.length).toNat]?
  else none

/-- The value `find_most_similar(doc_idx, top_k=3)` returns (or the
exception it raises): ranks every stored embedding by similarity to the
embedding at `doc_idx` (Python subscripting, so negative indices wrap),
drops the indices equal to `doc_idx`, and returns the first `top_k`
`(index, score)` pairs. -/
noncomputable def find_most_similar_result (doc_embeddings : List (List ℚ))
    (doc_idx : ℤ) (top_k : ℕ) : Except PyError (List (ℕ × ℝ)) :=
  match pyIndex doc_embeddings doc_idx with
  | none => .error .indexError
  | some query_embedding =>
    let similarities := doc_embeddings.map (fun doc_emb => cos_sim query_embedding doc_emb)
    let sorted_indices := (argsort similarities).reverse
    let tops := (sorted_indices.filter (fun (idx : ℕ) => (idx : ℤ) ≠ doc_idx)).take top_k
    .ok (tops.map (fun idx => (idx, similarities.getD idx 0)))

/-- `find_most_similar` paired with the (unmodified) embedding table after
the call: the function only reads the module-level `doc_embeddings`. -/
noncomputable def find_most_similar (doc_embeddings : List (List ℚ))
    (doc_idx : ℤ) (top_k : ℕ) :
    List (List ℚ) × Except PyError (List (ℕ × ℝ)) :=
  (doc_embeddings, find_most_similar_result doc_embeddings doc_idx top_k)

theorem encodeBatch_length {embed : String → Option (List ℚ)}
    {docs : List String} {embs : List (List ℚ)}
    (h : encodeBatch embed docs = some embs) : embs.length = docs.length := by
  induction docs generalizing embs with
  | nil =>
    simp only [encodeBatch] at h
    cases h
    rfl
  | cons d rest ih =>
    simp only [encodeBatch] at h
    cases hv : embed d with
    | none => rw [hv] at h; cases h
    | some v =>
      rw [hv] at h
      cases hr : encodeBatch embed rest with
      | none => rw [hr] at h; cases h
      | some vs =>
        rw [hr] at h
        cases h
        simp [ih hr]

theorem encodeBatch_getElem? {embed : String → Option (List ℚ)}
    {docs : List String} {embs : List (List ℚ)}
    (h : encodeBatch embed docs = some embs) :
    ∀ i : ℕ, embs[i]? = (docs[i]?).bind embed := by
  induction docs generalizing embs with
  | nil =>
    simp only [encodeBatch] at h
    cases h
    intro i
    simp
  | cons d rest ih =>
    simp only [encodeBatch] at h
    cases hv : embed d with
    | none => rw [hv] at h; cases h
    | some v =>
      rw [hv] at h
      cases hr : encodeBatch embed rest with
      | none => rw [hr] at h; cases h
      | some vs =>
        rw [hr] at h
        cases h
        intro i
        cases i with
        | zero => simp [hv]
        | succ n => simpa using ih hr n

theorem lookupPairs_eq_map {docs : List String} {sims : List ℝ}
    {idxs : List ℕ} (h : ∀ i ∈ idxs, i < docs.length) :
    lookupPairs docs sims idxs =
      some (idxs.map fun i => (docs.getD i "", sims.getD i 0)) := by
  induction idxs with
  | nil => rfl
  | cons i rest ih =>
    have hi : i < docs.length := h i (List.mem_cons_self i rest)
    have hrest := ih (fun t ht => h t (List.mem_cons_of_mem i ht))
    simp only [lookupPairs, hrest, List.getElem?_eq_getElem hi, List.map_cons]
    rw [List.getD_eq_getElem docs "" hi]

theorem lookupPairs_mem {docs : List String} {sims : List ℝ}
    {idxs : List ℕ} {res : List (String × ℝ)}
    (h : lookupPairs docs sims idxs = some res) :
    ∀ pr ∈ res, pr.1 ∈ docs := by
  induction idxs generalizing res with
  | nil =>
    simp only [lookupPairs] at h
    cases h
    intro pr hpr
    cases hpr
  | cons i rest ih =>
    simp only [lookupPairs] at h
    cases hd : docs[i]? with
    | none => rw [hd] at h; cases h
    | some doc =>
      rw [hd] at h
      cases ht : lookupPairs docs sims rest with
      | none => rw [ht] at h; cases h
      | some tl =>
        rw [ht] at h
        cases h
        intro pr hpr
        rcases List.mem_cons.mp hpr with rfl | hmem
        · exact List.getElem?_mem hd
        · exact ih ht pr hmem

theorem index_documents_success {embed : String → Option (List ℚ)}
    {st st2 : SimpleSemanticSearch} {docs : List String}
    (h : st.index_documents embed docs = (st2, true)) :
    st2.documents = docs ∧
      ∃ embs, st2.embeddings = some embs ∧ encodeBatch embed docs = some embs := by
  unfold SimpleSemanticSearch.index_documents at h
  cases henc : encodeBatch embed docs with
  | none =>
    rw [henc] at h
    cases h
  | some embs =>
    rw [henc] at h
    cases h
    exact ⟨rfl, embs, rfl, rfl⟩

theorem search_result_eq {embed : String → Option (List ℚ)}
    {self : SimpleSemanticSearch} {query : String} (top_k : ℕ)
    {qv : List ℚ} {embs : List (List ℚ)}
    (hq : embed query = some qv) (hembs : self.embeddings = some embs) :
    SimpleSemanticSearch.search_result embed self query top_k =
      (match lookupPairs self.documents (embs.map (cos_sim qv))
          (top_indices (embs.map (cos_sim qv)) top_k) with
        | some res => .ok res
        | none => .error .indexError) := by
  unfold SimpleSemanticSearch.search_result
  rw [hq, hembs]

theorem top_indices_mem_lt {sims : List ℝ} {top_k i : ℕ}
    (h : i ∈ top_indices sims top_k) : i < sims.length := by
  have h1 : i ∈ (argsort sims).reverse := (List.take_sublist _ _).subset h
  exact argsort_mem_lt (List.mem_reverse.mp h1)

theorem search_result_ok {embed : String → Option (List ℚ)}
    {self : SimpleSemanticSearch} {query : String} (top_k : ℕ)
    {qv : List ℚ} {embs : List (List ℚ)}
    (hq : embed query = some qv) (hembs : self.embeddings = some embs)
    (hlen : embs.length ≤ self.documents.length) :
    SimpleSemanticSearch.search_result embed self query top_k =
      .ok ((top_indices (embs.map (cos_sim qv)) top_k).map
        (fun i => (self.documents.getD i "",
          (embs.map (cos_sim qv)).getD i 0))) := by
  rw [search_result_eq top_k hq hembs]
  have hb : ∀ i ∈ top_indices (embs.map (cos_sim qv)) top_k,
      i < self.documents.length := by
    intro i hi
    have := top_indices_mem_lt hi
    rw [List.length_map] at this
    omega
  rw [lookupPairs_eq_map hb]

/-- C2 (amended): if the Embedder raises while `index_documents` is encoding
the batch, the stored embeddings are left unchanged, but `self.documents`
has already been replaced by the new batch (the assignment precedes the
encode call), so the index is NOT left in its prior state and the
document/embedding sequences can end up with different lengths. -/
theorem C2_index_failure_replaces_documents_only
    (embed : String → Option (List ℚ)) (self : SimpleSemanticSearch)
    (docs : List String) (h : encodeBatch embed docs = none) :
    self.index_documents embed docs =
      ({ documents := docs, embeddings := self.embeddings }, false) := by
  unfold SimpleSemanticSearch.index_documents
  rw [h]

theorem C2_index_failure_replaces_documents_only_witness :
    encodeBatch (fun _ => none) ["b", "c"] = none ∧
    SimpleSemanticSearch.index_documents (fun _ => none)
        ⟨["a"], some [[1]]⟩ ["b", "c"] =
      (⟨["b", "c"], some [[1]]⟩, false) :=
  ⟨rfl, C2_index_failure_replaces_documents_only _ _ _ rfl⟩

/-- C2 counterexample to the claim as stated: with a failing Embedder,
`index_documents` on the prior state `(["a"], [[1]])` with batch
`["b", "c"]` does NOT leave the index in its prior state — the documents
are replaced while the embeddings are not, and afterwards there are 2
stored documents but only 1 stored embedding. -/
theorem C2_counterexample :
    SimpleSemanticSearch.index_documents (fun _ => none)
        ⟨["a"], some [[1]]⟩ ["b", "c"] =
      (⟨["b", "c"], some [[1]]⟩, false) ∧
    (⟨["b", "c"], some [[1]]⟩ : SimpleSemanticSearch) ≠ ⟨["a"], some [[1]]⟩ ∧
    (⟨["b", "c"], some [[1]]⟩ : SimpleSemanticSearch).documents.length ≠
      ((⟨["b", "c"], some [[1]]⟩ : SimpleSemanticSearch).embeddings.getD []).length :=
  ⟨rfl, by decide, by decide⟩

/-- C4 (amended): with a query the Embedder can encode, `search` on an index
populated with an empty document sequence returns the empty result list, but
`search` on a never-populated index (where `self.embeddings` is still
`None`) raises a `TypeError` from iterating `None` rather than returning an
empty sequence. -/
theorem C4_search_empty_vs_unindexed (embed : String → Option (List ℚ))
    (self : SimpleSemanticSearch) (query : String) (top_k : ℕ)
    (qv : List ℚ) (hq : embed query = some qv) :
    (self.embeddings = none →
      (self.search embed query top_k).2 = .error .typeError) ∧
    (self.embeddings = some [] →
      (self.search embed query top_k).2 = .ok []) := by
  constructor
  · intro h
    show SimpleSemanticSearch.search_result embed self query top_k = _
    unfold SimpleSemanticSearch.search_result
    rw [hq, h]
  · intro h
    show SimpleSemanticSearch.search_result embed self query top_k = _
    unfold SimpleSemanticSearch.search_result
    rw [hq, h]
    simp only [List.map_nil]
    rw [show top_indices ([] : List ℝ) top_k = [] from by
      unfold top_indices
      rw [show argsort ([] : List ℝ) = [] from rfl, List.reverse_nil,
        List.take_nil]]
    rfl

theorem C4_search_empty_vs_unindexed_witness :
    ((fun _ : String => some ([] : List ℚ)) "q" = some []) ∧
    (SimpleSemanticSearch.search (fun _ => some [])
      ⟨[], some []⟩ "q" 3).2 = .ok [] :=
  ⟨rfl, (C4_search_empty_vs_unindexed (fun _ => some []) ⟨[], some []⟩
    "q" 3 [] rfl).2 rfl⟩

/-- C4 counterexample to the claim as stated: `search` on a freshly
constructed (never populated) engine raises (`TypeError` from iterating
`None`) instead of returning an empty result sequence. -/
theorem C4_counterexample :
    (SimpleSemanticSearch.search (fun _ => some [])
      SimpleSemanticSearch.init "q" 3).2 = .error .typeError := rfl

/-- C10: `search` and `find_most_similar` are read-only — neither assigns to
the stored documents, the stored embeddings, or the module-level embedding
table, so the state after any call (successful or failed) equals the state
before it. -/
theorem C10_search_and_most_similar_read_only :
    ∀ (embed : String → Option (List ℚ)) (self : SimpleSemanticSearch)
      (query : String) (top_k : ℕ) (doc_embeddings : List (List ℚ))
      (doc_idx : ℤ) (k2 : ℕ),
      (self.search embed query top_k).1 = self ∧
      (find_most_similar doc_embeddings doc_idx k2).1 = doc_embeddings :=
  fun _ _ _ _ _ _ _ => ⟨rfl, rfl⟩

/-- C7 (amended): `find_most_similar` raises `IndexError` exactly when the
position is outside `[-corpus_size, corpus_size)` — a position at or beyond
`corpus_size`, or below `-corpus_size`, raises and leaves the embedding
table unchanged; negative positions from `-corpus_size` up are accepted by
Python subscripting (they wrap around from the end) and do not raise. -/
theorem C7_most_similar_out_of_range (doc_embeddings : List (List ℚ))
    (doc_idx : ℤ) (top_k : ℕ)
    (h : doc_idx < -(doc_embeddings.length : ℤ) ∨
      (doc_embeddings.length : ℤ) ≤ doc_idx) :
    find_most_similar doc_embeddings doc_idx top_k =
      (doc_embeddings, .error .indexError) := by
  have hres : pyIndex doc_embeddings doc_idx = (none : Option (List ℚ)) := by
    unfold pyIndex
    rcases h with h | h
    · have h1 : ¬ (0 ≤ doc_idx) := by omega
      have h2 : ¬ (0 ≤ doc_idx + (doc_embeddings.length : ℤ)) := by omega
      rw [if_neg h1, if_neg h2]
    · have h1 : 0 ≤ doc_idx := by omega
      rw [if_pos h1]
      apply List.getElem?_eq_none
      omega
  show (doc_embeddings, find_most_similar_result doc_embeddings doc_idx top_k) = _
  unfold find_most_similar_result
  rw [hres]

theorem C7_most_similar_out_of_range_witness :
    ((3 : ℤ) < -((([[(1 : ℚ)]]) : List (List ℚ)).length : ℤ) ∨
      ((([[(1 : ℚ)]]) : List (List ℚ)).length : ℤ) ≤ 3) ∧
    find_most_similar [[(1 : ℚ)]] 3 5 = ([[(1 : ℚ)]], .error .indexError) :=
  ⟨Or.inr (by decide), C7_most_similar_out_of_range _ _ _ (Or.inr (by decide))⟩

/-- C7 counterexample to the claim as stated: the negative position `-1` on
a 1-document corpus is NOT rejected — Python subscripting wraps it to the
last document, so `find_most_similar` succeeds (and, since every ranked
index differs from `-1`, it even returns the query document itself). -/
theorem C7_counterexample :
    (find_most_similar [[(1 : ℚ)]] (-1) 3).2 =
      .ok [(0, cos_sim [(1 : ℚ)] [(1 : ℚ)])] := rfl

theorem filter_take_props (sims : List ℝ) (p : ℤ) (k : ℕ)
    (hp0 : 0 ≤ p) (hp : p.toNat < sims.length) :
    ((((argsort sims).reverse).filter
        (fun (idx : ℕ) => (idx : ℤ) ≠ p)).take k).length ≤ k ∧
    ((((argsort sims).reverse).filter
        (fun (idx : ℕ) => (idx : ℤ) ≠ p)).take k).length ≤ sims.length - 1 ∧
    ∀ i ∈ (((argsort sims).reverse).filter
        (fun (idx : ℕ) => (idx : ℤ) ≠ p)).take k, (i : ℤ) ≠ p := by
  have hsub : (((argsort sims).reverse).filter
      (fun (idx : ℕ) => (idx : ℤ) ≠ p)).Sublist ((argsort sims).reverse) :=
    List.filter_sublist _
  have hmemrev : p.toNat ∈ (argsort sims).reverse := by
    rw [List.mem_reverse]
    exact mem_argsort hp
  have hnot : p.toNat ∉ ((argsort sims).reverse).filter
      (fun (idx : ℕ) => (idx : ℤ) ≠ p) := by
    intro hmem
    have := (List.mem_filter.mp hmem).2
    simp only [decide_eq_true_eq] at this
    apply this
    omega
  have hflen : (((argsort sims).reverse).filter
      (fun (idx : ℕ) => (idx : ℤ) ≠ p)).length < ((argsort sims).reverse).length := by
    rcases lt_or_eq_of_le hsub.length_le with h | h
    · exact h
    · rw [← hsub.eq_of_length h] at hmemrev
      exact absurd hmemrev hnot
  have hrevlen : ((argsort sims).reverse).length = sims.length := by
    rw [List.length_reverse, argsort_length]
  refine ⟨?_, ?_, ?_⟩
  · rw [List.length_take]
    exact min_le_left _ _
  · rw [List.length_take]
    have := min_le_right k (((argsort sims).reverse).filter
      (fun (idx : ℕ) => (idx : ℤ) ≠ p)).length
    omega
  · intro i hi
    have hif := (List.take_sublist _ _).subset hi
    have := (List.mem_filter.mp hif).2
    simpa using this

/-- C6: for a valid corpus position `p` (`0 <= p < corpus size`) and positive
`top_k`, `most_similar(p, top_k)` succeeds, never includes position `p` in
its results, and returns at most `top_k` results — and at most
`corpus size - 1` results, so `most_similar(0)` on a 3-document corpus
returns at most 2 results. -/
theorem C6_most_similar_excludes_self (doc_embeddings : List (List ℚ))
    (p : ℤ) (top_k : ℕ) (hp0 : 0 ≤ p)
    (hpn : p < (doc_embeddings.length : ℤ)) (hk : 0 < top_k) :
    ∃ res, find_most_similar doc_embeddings p top_k = (doc_embeddings, .ok res) ∧
      res.length ≤ top_k ∧ res.length ≤ doc_embeddings.length - 1 ∧
      ∀ pr ∈ res, (pr.1 : ℤ) ≠ p := by
  have hlt : p.toNat < doc_embeddings.length := by omega
  have hpy : pyIndex doc_embeddings p = some doc_embeddings[p.toNat] := by
    unfold pyIndex
    rw [if_pos hp0]
    exact List.getElem?_eq_getElem hlt
  have hmain := filter_take_props
    (doc_embeddings.map (fun doc_emb => cos_sim doc_embeddings[p.toNat] doc_emb))
    p top_k hp0 (by rw [List.length_map]; exact hlt)
  refine ⟨((((argsort (doc_embeddings.map
        (fun doc_emb => cos_sim doc_embeddings[p.toNat] doc_emb))).reverse).filter
        (fun (idx : ℕ) => (idx : ℤ) ≠ p)).take top_k).map
      (fun idx => (idx, (doc_embeddings.map
        (fun doc_emb => cos_sim doc_embeddings[p.toNat] doc_emb)).getD idx 0)),
    ?_, ?_, ?_, ?_⟩
  · show (doc_embeddings,
      find_most_similar_result doc_embeddings p top_k) = _
    unfold find_most_similar_result
    rw [hpy]
  · rw [List.length_map]
    exact hmain.1
  · rw [List.length_map]
    have := hmain.2.1
    rw [List.length_map] at this
    exact this
  · intro pr hpr
    rcases List.mem_map.mp hpr with ⟨i, hi, rfl⟩
    exact hmain.2.2 i hi

theorem C6_most_similar_excludes_self_witness :
    (0 : ℤ) ≤ 0 ∧
    (0 : ℤ) < ((([[(1 : ℚ)], [(2 : ℚ)], [(3 : ℚ)]]) : List (List ℚ)).length : ℤ) ∧
    0 < 3 ∧
    (∃ res, find_most_similar [[(1 : ℚ)], [(2 : ℚ)], [(3 : ℚ)]] 0 3 =
        ([[(1 : ℚ)], [(2 : ℚ)], [(3 : ℚ)]], .ok res) ∧
      res.length ≤ 3 ∧
      res.length ≤ ([[(1 : ℚ)], [(2 : ℚ)], [(3 : ℚ)]] : List (List ℚ)).length - 1 ∧
      ∀ pr ∈ res, (pr.1 : ℤ) ≠ 0) :=
  ⟨by decide, by decide, by decide,
    C6_most_similar_excludes_self _ _ _ (by decide) (by decide) (by decide)⟩

/-- C5: after `index_documents(D1)` and then a successful
`index_documents(D2)`, every document a subsequent successful `search`
returns is drawn from `D2`: re-indexing replaces the whole corpus. -/
theorem C5_reindex_replaces (embed : String → Option (List ℚ))
    (st0 st1 st2 : SimpleSemanticSearch) (D1 D2 : List String) (b1 : Bool)
    (query : String) (top_k : ℕ) (res : List (String × ℝ))
    (h1 : st0.index_documents embed D1 = (st1, b1))
    (h2 : st1.index_documents embed D2 = (st2, true))
    (h3 : (st2.search embed query top_k).2 = .ok res) :
    ∀ pr ∈ res, pr.1 ∈ D2 := by
  obtain ⟨hdocs, embs, hembs, henc⟩ := index_documents_success h2
  have h3copy : SimpleSemanticSearch.search_result embed st2 query top_k = .ok res := h3
  cases hq : embed query with
  | none =>
    unfold SimpleSemanticSearch.search_result at h3copy
    rw [hq] at h3copy
    exact absurd h3copy (by simp)
  | some qv =>
    rw [search_result_eq top_k hq hembs] at h3copy
    cases hl : lookupPairs st2.documents (embs.map (cos_sim qv))
        (top_indices (embs.map (cos_sim qv)) top_k) with
    | none =>
      rw [hl] at h3copy
      exact absurd h3copy (by simp)
    | some r2 =>
      rw [hl] at h3copy
      have hres : r2 = res := by
        injection h3copy
      subst hres
      intro pr hpr
      have := lookupPairs_mem hl pr hpr
      rw [hdocs] at this
      exact this

theorem C5_reindex_replaces_witness :
    SimpleSemanticSearch.index_documents (fun _ => some [(1 : ℚ)])
        SimpleSemanticSearch.init ["a"] = (⟨["a"], some [[1]]⟩, true) ∧
    SimpleSemanticSearch.index_documents (fun _ => some [(1 : ℚ)])
        ⟨["a"], some [[1]]⟩ ["x"] = (⟨["x"], some [[1]]⟩, true) ∧
    (SimpleSemanticSearch.search (fun _ => some [(1 : ℚ)])
        ⟨["x"], some [[1]]⟩ "q" 3).2 = .ok [("x", cos_sim [1] [1])] ∧
    ("x" : String) ∈ ["x"] :=
  ⟨rfl, rfl, rfl,
    C5_reindex_replaces (fun _ => some [(1 : ℚ)]) SimpleSemanticSearch.init
      ⟨["a"], some [[1]]⟩ ⟨["x"], some [[1]]⟩ ["a"] ["x"] true "q" 3
      [("x", cos_sim [1] [1])] rfl rfl rfl ("x", cos_sim [1] [1])
      (List.mem_singleton.mpr rfl)⟩

theorem top_indices_scores_sorted (sims : List ℝ) (k : ℕ) :
    List.Sorted (· ≥ ·) ((top_indices sims k).map (fun i => sims.getD i 0)) := by
  have hpair := argsort_pairwise (0 : ℝ) sims
  have hrev := List.pairwise_reverse.mpr hpair
  have htake := List.Pairwise.sublist
    (List.take_sublist k ((argsort sims).reverse)) hrev
  rw [List.Sorted, List.pairwise_map]
  unfold top_indices
  refine htake.imp ?_
  intro a b hab
  rcases hab with h | ⟨h, _⟩
  · exact le_of_lt h
  · exact le_of_eq h

/-- C1: on an index populated from a non-empty corpus, a successful
`search(q, top_k)` returns exactly `min(top_k, corpus size)` document/score
pairs, sorted by non-increasing similarity score (in particular, a `top_k`
larger than the corpus is clamped to the corpus size). -/
theorem C1_search_topk_sorted (embed : String → Option (List ℚ))
    (st0 st : SimpleSemanticSearch) (docs : List String) (query : String)
    (top_k : ℕ) (qv : List ℚ)
    (hidx : st0.index_documents embed docs = (st, true))
    (hne : docs ≠ []) (hk : 0 < top_k) (hq : embed query = some qv) :
    ∃ res, st.search embed query top_k = (st, .ok res) ∧
      res.length = min top_k docs.length ∧
      List.Sorted (· ≥ ·) (res.map Prod.snd) := by
  obtain ⟨hdocs, embs, hembs, henc⟩ := index_documents_success hidx
  have hlen : embs.length = docs.length := encodeBatch_length henc
  have hlen2 : embs.length ≤ st.documents.length := by rw [hdocs, hlen]
  have hok := search_result_ok top_k hq hembs hlen2
  refine ⟨(top_indices (embs.map (cos_sim qv)) top_k).map
      (fun i => (st.documents.getD i "", (embs.map (cos_sim qv)).getD i 0)),
    ?_, ?_, ?_⟩
  · show (st, SimpleSemanticSearch.search_result embed st query top_k) = _
    rw [hok]
  · rw [List.length_map]
    unfold top_indices
    rw [List.length_take, List.length_reverse, argsort_length,
      List.length_map, hlen]
  · rw [List.map_map]
    exact top_indices_scores_sorted (embs.map (cos_sim qv)) top_k

theorem C1_search_topk_sorted_witness :
    SimpleSemanticSearch.index_documents (fun _ => some [(1 : ℚ)])
        SimpleSemanticSearch.init ["a"] = (⟨["a"], some [[1]]⟩, true) ∧
    (["a"] : List String) ≠ [] ∧ 0 < 5 ∧
    (fun _ : String => some [(1 : ℚ)]) "q" = some [(1 : ℚ)] ∧
    (∃ res, SimpleSemanticSearch.search (fun _ => some [(1 : ℚ)])
        ⟨["a"], some [[1]]⟩ "q" 5 = (⟨["a"], some [[1]]⟩, .ok res) ∧
      res.length = min 5 (["a"] : List String).length ∧
      List.Sorted (· ≥ ·) (res.map Prod.snd)) :=
  ⟨rfl, by simp, by decide, rfl,
    C1_search_topk_sorted (fun _ => some [(1 : ℚ)]) SimpleSemanticSearch.init
      ⟨["a"], some [[1]]⟩ ["a"] "q" 5 [(1 : ℚ)] rfl (by simp) (by decide) rfl⟩

/-- C3 (amended): when two stored documents have identical similarity score
to the query, the document with the LARGER original corpus position appears
before the other in `search`'s result sequence (here stated with `top_k`
covering the whole corpus so both are returned): `np.argsort` is ascending
and stable on these short arrays, and reversing it puts equal-score
documents in descending position order. -/
theorem C3_equal_scores_larger_position_first
    (embed : String → Option (List ℚ)) (st0 st : SimpleSemanticSearch)
    (docs : List String) (query : String) (top_k : ℕ) (qv : List ℚ)
    (embs : List (List ℚ)) (i j : ℕ)
    (hidx : st0.index_documents embed docs = (st, true))
    (hq : embed query = some qv) (hembs : st.embeddings = some embs)
    (hij : i < j) (hj : j < embs.length)
    (heq : cos_sim qv (embs.getD i []) = cos_sim qv (embs.getD j []))
    (hk : embs.length ≤ top_k) :
    [j, i].Sublist (top_indices (embs.map (cos_sim qv)) top_k) ∧
    st.search embed query top_k = (st,
      .ok ((top_indices (embs.map (cos_sim qv)) top_k).map
        (fun t => (st.documents.getD t "",
          (embs.map (cos_sim qv)).getD t 0)))) := by
  obtain ⟨hdocs, embs2, hembs2, henc⟩ := index_documents_success hidx
  have hsame : embs2 = embs := by
    rw [hembs] at hembs2
    injection hembs2 with h
    exact h.symm
  subst hsame
  have hlen : embs2.length = docs.length := encodeBatch_length henc
  have hi : i < embs2.length := lt_trans hij hj
  have hsimlen : (embs2.map (cos_sim qv)).length = embs2.length :=
    List.length_map _ _
  have hgd : ∀ t : ℕ, t < embs2.length →
      (embs2.map (cos_sim qv)).getD t 0 = cos_sim qv (embs2.getD t []) := by
    intro t ht
    rw [List.getD_eq_getElem _ _ (by rw [hsimlen]; exact ht),
      List.getElem_map, List.getD_eq_getElem _ _ ht]
  have heq2 : (embs2.map (cos_sim qv)).getD i 0 =
      (embs2.map (cos_sim qv)).getD j 0 := by
    rw [hgd i hi, hgd j hj, heq]
  have hrevp := List.pairwise_reverse.mpr
    (argsort_pairwise (0 : ℝ) (embs2.map (cos_sim qv)))
  have hmemi : i ∈ (argsort (embs2.map (cos_sim qv))).reverse := by
    rw [List.mem_reverse]
    exact mem_argsort (by rw [hsimlen]; exact hi)
  have hmemj : j ∈ (argsort (embs2.map (cos_sim qv))).reverse := by
    rw [List.mem_reverse]
    exact mem_argsort (by rw [hsimlen]; exact hj)
  have hsub : [j, i].Sublist ((argsort (embs2.map (cos_sim qv))).reverse) := by
    refine sublist_pair_of_pairwise hrevp hmemi hmemj ?_ ?_
    · exact Or.inr ⟨heq2, le_of_lt hij⟩
    · intro hctr
      rcases hctr with h | ⟨h, h2⟩
      · rw [heq2] at h
        exact absurd h (lt_irrefl _)
      · omega
  have htake : top_indices (embs2.map (cos_sim qv)) top_k =
      (argsort (embs2.map (cos_sim qv))).reverse := by
    unfold top_indices
    apply List.take_of_length_le
    rw [List.length_reverse, argsort_length, hsimlen]
    exact hk
  constructor
  · rw [htake]
    exact hsub
  · show (st, SimpleSemanticSearch.search_result embed st query top_k) = _
    rw [search_result_ok top_k hq hembs (by rw [hdocs, hlen])]

theorem C3_equal_scores_larger_position_first_witness :
    SimpleSemanticSearch.index_documents (fun _ => some [(1 : ℚ)])
        SimpleSemanticSearch.init ["a", "b"] =
      (⟨["a", "b"], some [[1], [1]]⟩, true) ∧
    (0 : ℕ) < 1 ∧ (1 : ℕ) < ([[(1 : ℚ)], [(1 : ℚ)]] : List (List ℚ)).length ∧
    cos_sim [(1 : ℚ)] (([[(1 : ℚ)], [(1 : ℚ)]] : List (List ℚ)).getD 0 []) =
      cos_sim [(1 : ℚ)] (([[(1 : ℚ)], [(1 : ℚ)]] : List (List ℚ)).getD 1 []) ∧
    ([[(1 : ℚ)], [(1 : ℚ)]] : List (List ℚ)).length ≤ 2 ∧
    ([1, 0].Sublist (top_indices
        (([[(1 : ℚ)], [(1 : ℚ)]] : List (List ℚ)).map (cos_sim [(1 : ℚ)])) 2) ∧
      SimpleSemanticSearch.search (fun _ => some [(1 : ℚ)])
          ⟨["a", "b"], some [[1], [1]]⟩ "q" 2 =
        (⟨["a", "b"], some [[1], [1]]⟩,
          .ok ((top_indices
              (([[(1 : ℚ)], [(1 : ℚ)]] : List (List ℚ)).map (cos_sim [(1 : ℚ)])) 2).map
            (fun t => ((⟨["a", "b"], some [[1], [1]]⟩ :
                SimpleSemanticSearch).documents.getD t "",
              (([[(1 : ℚ)], [(1 : ℚ)]] : List (List ℚ)).map
                (cos_sim [(1 : ℚ)])).getD t 0))))) :=
  ⟨rfl, by decide, by decide, rfl, by decide,
    C3_equal_scores_larger_position_first (fun _ => some [(1 : ℚ)])
      SimpleSemanticSearch.init ⟨["a", "b"], some [[1], [1]]⟩ ["a", "b"] "q" 2
      [(1 : ℚ)] [[(1 : ℚ)], [(1 : ℚ)]] 0 1 rfl rfl rfl (by decide) (by decide)
      rfl (by decide)⟩

/-- C3 counterexample to the claim as stated: index `["a", "b"]` with equal
embeddings, so both documents have similarity score `1` to the query; the
result sequence lists `"b"` (original position 1) BEFORE `"a"` (original
position 0), refuting the smaller-position-first tie-break. -/
theorem C3_counterexample :
    (SimpleSemanticSearch.search (fun _ => some [(1 : ℚ)])
      ⟨["a", "b"], some [[1], [1]]⟩ "q" 2).2 =
      .ok [("b", 1), ("a", 1)] := by
  have hc : cos_sim [(1 : ℚ)] [(1 : ℚ)] = 1 :=
    cos_sim_self (by norm_num [dotp])
  have hok := @search_result_ok (fun _ : String => some [(1 : ℚ)])
    ⟨["a", "b"], some [[1], [1]]⟩ "q" 2 [(1 : ℚ)] [[(1 : ℚ)], [(1 : ℚ)]]
    (by rfl) (by rfl) (by decide)
  have hsims : ([[(1 : ℚ)], [(1 : ℚ)]] : List (List ℚ)).map
      (cos_sim [(1 : ℚ)]) = [1, 1] := by
    simp [hc]
  rw [hsims] at hok
  have hins : List.insertionSort lexLe [((0 : ℕ), (1 : ℝ)), (1, 1)] =
      [((0 : ℕ), (1 : ℝ)), (1, 1)] := by
    show List.orderedInsert lexLe (0, (1 : ℝ))
        (List.insertionSort lexLe [((1 : ℕ), (1 : ℝ))]) = _
    rw [show List.insertionSort lexLe [((1 : ℕ), (1 : ℝ))] =
      [((1 : ℕ), (1 : ℝ))] from rfl]
    simp only [List.orderedInsert]
    rw [if_pos (show lexLe ((0 : ℕ), (1 : ℝ)) (1, 1) from
      Or.inr ⟨rfl, by norm_num⟩)]
  have htop : top_indices [(1 : ℝ), 1] 2 = [1, 0] := by
    unfold top_indices argsort
    rw [show enumFromIdx 0 [(1 : ℝ), 1] = [((0 : ℕ), (1 : ℝ)), (1, 1)] from rfl]
    rw [hins]
    rfl
  rw [htop] at hok
  show SimpleSemanticSearch.search_result (fun _ => some [(1 : ℚ)])
    ⟨["a", "b"], some [[1], [1]]⟩ "q" 2 = _
  rw [hok]
  rfl

/-- C8 (amended): if corpus position `p` holds document `d`, the
(deterministic) Embedder maps `d` to a vector `v` with nonzero norm, and
every other stored embedding has cosine similarity strictly below `1` with
`v`, then `search(text of d, top_k=1)` returns `d` as the sole result with
score exactly `1`. (As stated, the claim fails when a distinct document has
an embedding parallel to `v` — its score also equals `1`, and the reversed
stable argsort can place it first — or when `v` has zero norm.) -/
theorem C8_self_similarity (embed : String → Option (List ℚ))
    (st0 st : SimpleSemanticSearch) (docs : List String) (p : ℕ) (d : String)
    (v : List ℚ) (embs : List (List ℚ))
    (hidx : st0.index_documents embed docs = (st, true))
    (hembs : st.embeddings = some embs)
    (hd : docs[p]? = some d) (hv : embed d = some v) (hnz : dotp v v ≠ 0)
    (hlt : ∀ j, j < embs.length → j ≠ p → cos_sim v (embs.getD j []) < 1) :
    st.search embed d 1 = (st, .ok [(d, 1)]) := by
  obtain ⟨hdocs, embs2, hembs2, henc⟩ := index_documents_success hidx
  have hsame : embs2 = embs := by
    rw [hembs] at hembs2
    injection hembs2 with h
    exact h.symm
  subst hsame
  have hlen : embs2.length = docs.length := encodeBatch_length henc
  have hplen : p < docs.length := by
    rcases List.getElem?_eq_some.mp hd with ⟨h1, _⟩
    exact h1
  have hpe : p < embs2.length := by omega
  have hvp : embs2[p]? = some v := by
    rw [encodeBatch_getElem? henc p, hd]
    exact hv
  have hgd : ∀ t : ℕ, t < embs2.length →
      (embs2.map (cos_sim v)).getD t 0 = cos_sim v (embs2.getD t []) := by
    intro t ht
    rw [List.getD_eq_getElem _ _ (by rw [List.length_map]; exact ht),
      List.getElem_map, List.getD_eq_getElem _ _ ht]
  have hgp : (embs2.map (cos_sim v)).getD p 0 = 1 := by
    rw [hgd p hpe]
    have hvv : embs2.getD p [] = v := by
      rw [List.getD_eq_getElem?_getD, hvp]
      rfl
    rw [hvv]
    exact cos_sim_self hnz
  have hmax : ∀ j, j < (embs2.map (cos_sim v)).length → j ≠ p →
      (embs2.map (cos_sim v)).getD j 0 < (embs2.map (cos_sim v)).getD p 0 := by
    intro j hjl hjp
    rw [List.length_map] at hjl
    rw [hgp, hgd j hjl]
    exact hlt j hjl hjp
  obtain ⟨rest, hrev⟩ := reverse_argsort_head (0 : ℝ)
    (by rw [List.length_map]; exact hpe) hmax
  have htop : top_indices (embs2.map (cos_sim v)) 1 = [p] := by
    unfold top_indices
    rw [hrev]
    rfl
  have hok := search_result_ok 1 hv hembs (by rw [hdocs, hlen])
  rw [htop] at hok
  show (st, SimpleSemanticSearch.search_result embed st d 1) = _
  rw [hok]
  have hdgd : st.documents.getD p "" = d := by
    rw [hdocs, List.getD_eq_getElem?_getD, hd]
    rfl
  simp only [List.map_cons, List.map_nil]
  rw [hdgd, hgp]

theorem C8_self_similarity_witness :
    SimpleSemanticSearch.search
      (fun s => if s = "a" then some [(1 : ℚ), 0] else some [(0 : ℚ), 1])
      ⟨["a", "b"], some [[1, 0], [0, 1]]⟩ "a" 1 =
    (⟨["a", "b"], some [[1, 0], [0, 1]]⟩, .ok [("a", 1)]) :=
  C8_self_similarity
    (fun s => if s = "a" then some [(1 : ℚ), 0] else some [(0 : ℚ), 1])
    SimpleSemanticSearch.init ⟨["a", "b"], some [[1, 0], [0, 1]]⟩
    ["a", "b"] 0 "a" [1, 0] [[1, 0], [0, 1]] rfl rfl rfl rfl
    (by norm_num [dotp])
    (by
      intro j hj hne
      have hj2 : j < 2 := by simpa using hj
      have hj1 : j = 1 := by omega
      subst hj1
      rw [show ([[(1 : ℚ), 0], [0, 1]] : List (List ℚ)).getD 1 [] =
        [(0 : ℚ), 1] from rfl]
      rw [show cos_sim [(1 : ℚ), 0] [(0 : ℚ), 1] = 0 from by
        rw [cos_sim_eq]; norm_num [dotp]]
      norm_num)

/-- C8 counterexample to the claim as stated: the Embedder maps `"a"` to
`[1]` and `"b"` to `[2]` (deterministically), so both stored embeddings are
parallel and both score exactly `1` against the query `"a"`; the reversed
stable argsort puts the larger position first, so `search("a", top_k=1)`
returns `"b"`, not `"a"`, as the sole result. -/
theorem C8_counterexample :
    (SimpleSemanticSearch.search
      (fun s => if s = "a" then some [(1 : ℚ)] else some [(2 : ℚ)])
      ⟨["a", "b"], some [[1], [2]]⟩ "a" 1).2 = .ok [("b", 1)] := by
  have hc1 : cos_sim [(1 : ℚ)] [(1 : ℚ)] = 1 :=
    cos_sim_self (by norm_num [dotp])
  have hc2 : cos_sim [(1 : ℚ)] [(2 : ℚ)] = 1 := by
    rw [cos_sim_eq]
    norm_num [dotp]
    rw [show (4 : ℝ) = (2 : ℝ) ^ 2 by norm_num, Real.sqrt_sq (by norm_num)]
    norm_num
  have hok := @search_result_ok
    (fun s => if s = "a" then some [(1 : ℚ)] else some [(2 : ℚ)])
    ⟨["a", "b"], some [[1], [2]]⟩ "a" 1 [(1 : ℚ)] [[(1 : ℚ)], [(2 : ℚ)]]
    (by rfl) (by rfl) (by decide)
  have hsims : ([[(1 : ℚ)], [(2 : ℚ)]] : List (List ℚ)).map
      (cos_sim [(1 : ℚ)]) = [1, 1] := by
    simp [hc1, hc2]
  rw [hsims] at hok
  have hins2 : List.insertionSort lexLe [((0 : ℕ), (1 : ℝ)), (1, 1)] =
      [((0 : ℕ), (1 : ℝ)), (1, 1)] := by
    show List.orderedInsert lexLe (0, (1 : ℝ))
        (List.insertionSort lexLe [((1 : ℕ), (1 : ℝ))]) = _
    rw [show List.insertionSort lexLe [((1 : ℕ), (1 : ℝ))] =
      [((1 : ℕ), (1 : ℝ))] from rfl]
    simp only [List.orderedInsert]
    rw [if_pos (show lexLe ((0 : ℕ), (1 : ℝ)) (1, 1) from
      Or.inr ⟨rfl, by norm_num⟩)]
  have htop : top_indices [(1 : ℝ), 1] 1 = [1] := by
    unfold top_indices argsort
    rw [show enumFromIdx 0 [(1 : ℝ), 1] = [((0 : ℕ), (1 : ℝ)), (1, 1)] from rfl]
    rw [hins2]
    rfl
  rw [htop] at hok
  show SimpleSemanticSearch.search_result
    (fun s => if s = "a" then some [(1 : ℚ)] else some [(2 : ℚ)])
    ⟨["a", "b"], some [[1], [2]]⟩ "a" 1 = _
  rw [hok]
  rfl

/-- C9: the similarity score `search` computes for a stored embedding `b`
against the query vector `a` (the `cos_sim` every entry of its
`similarities` list is built from) equals `dot(a,b) / (norm(a) * norm(b))`,
and equals `0` whenever either vector has zero norm, so computing a score
never divides by zero. -/
theorem C9_cosine_formula (a b : List ℚ) :
    cos_sim a b =
      (dotp a b : ℝ) / (Real.sqrt (dotp a a : ℝ) * Real.sqrt (dotp b b : ℝ)) ∧
    ((Real.sqrt (dotp a a : ℝ) = 0 ∨ Real.sqrt (dotp b b : ℝ) = 0) →
      cos_sim a b = 0) := by
  refine ⟨cos_sim_eq a b, ?_⟩
  intro h
  rw [cos_sim_eq a b]
  rcases h with h | h
  · rw [h, zero_mul, div_zero]
  · rw [h, mul_zero, div_zero]

theorem C9_cosine_formula_witness :
    (Real.sqrt (dotp [(0 : ℚ)] [(0 : ℚ)] : ℝ) = 0 ∨
      Real.sqrt (dotp [(0 : ℚ)] [(0 : ℚ)] : ℝ) = 0) ∧
    cos_sim [(0 : ℚ)] [(0 : ℚ)] = 0 :=
  ⟨Or.inl (by norm_num [dotp]),
    (C9_cosine_formula [(0 : ℚ)] [(0 : ℚ)]).2 (Or.inl (by norm_num [dotp]))⟩
